import Mathlib

/-!
Verification of the diagnostic translation and formatting pipeline of
`src/server/typescriptServiceClientHost.ts` (severity classification,
coordinate conversion, tag and code normalization, debounced reload,
diagnostic routing) and of the bundled `formatDiagnostic` utility
(backtick-aware escaping, severity coloring, link-markup substitutions).
Strings are modelled as `List Char`; JavaScript regex substitutions are
modelled by recursive scanners implementing the exact non-greedy or
greedy semantics of the patterns in the source.
-/

/-! ## Severity classifier (`getDiagnosticSeverity`, lines 287-313) -/

inductive DiagnosticSeverity where
  | Error
  | Warning
  | Information
  | Hint
deriving DecidableEq, Repr

/-- Modelled from the spec: the concrete numeric contents of the
`StyleCheckCodeSet` come from the `utils/errorCodes` module, which is not
part of the given source; the spec lists its members (unused variable or
property, all imports unused, unreachable code, unused label, fall-through
in switch, not all code paths return a value) and fixes 6133 as a member. -/
def styleCheckDiagnostics : List Nat :=
  [6196, 6133, 6138, 6192, 7027, 7028, 7029, 7030]

/-- `isStyleCheckDiagnostic` (line 311): true only when the code is
actually a number and a member of the style-check set. -/
def isStyleCheckDiagnostic (code : Option Nat) : Bool :=
  match code with
  | some n => styleCheckDiagnostics.contains n
  | none => false

/-- Category strings compared against `PConst.DiagnosticCategory`
(values "error", "warning", "suggestion"). -/
def getDiagnosticSeverity (reportStyleCheckAsWarnings : Bool)
    (code : Option Nat) (category : String) : DiagnosticSeverity :=
  if reportStyleCheckAsWarnings && isStyleCheckDiagnostic code
      && (category == "error") then
    DiagnosticSeverity.Warning
  else if category == "error" then DiagnosticSeverity.Error
  else if category == "warning" then DiagnosticSeverity.Warning
  else if category == "suggestion" then DiagnosticSeverity.Hint
  else DiagnosticSeverity.Error

/-! ## Coordinate conversion (`onConfigDiagnosticsReceived`, lines 92-102) -/

structure TsPosition where
  line : Int
  offset : Int
deriving DecidableEq, Repr

structure LspRange where
  startLine : Int
  startCharacter : Int
  endLine : Int
  endCharacter : Int
deriving DecidableEq, Repr

/-- `if (!start || !end) range = Range.create(0, 0, 0, 1) else
Range.create(start.line - 1, start.offset - 1, end.line - 1, end.offset - 1)`. -/
def toZeroBasedRange (s e : Option TsPosition) : LspRange :=
  match s, e with
  | some sp, some ep =>
      ⟨sp.line - 1, sp.offset - 1, ep.line - 1, ep.offset - 1⟩
  | _, _ => ⟨0, 0, 0, 1⟩

/-! ## Tag and code normalization (`tsDiagnosticToLspDiagnostic`, lines 265-285) -/

inductive DiagnosticTag where
  | Unnecessary
  | Deprecated
deriving DecidableEq, Repr

/-- `tags.push(Unnecessary)` when `reportsUnnecessary`, `push(Deprecated)`
when `reportsDeprecated`, then `tags = tags.length ? tags : undefined`. -/
def diagnosticTags (reportsUnnecessary reportsDeprecated : Bool) :
    Option (List DiagnosticTag) :=
  let tags := (if reportsUnnecessary then [DiagnosticTag.Unnecessary] else [])
      ++ (if reportsDeprecated then [DiagnosticTag.Deprecated] else [])
  if tags.isEmpty then none else some tags

/-- The `code` field of a normalized diagnostic: an explicit JavaScript
`null` or a number, never absent. -/
inductive CodeField where
  | null
  | num (n : Nat)
deriving DecidableEq, Repr

/-- `code: diagnostic.code ? diagnostic.code : null` — a JavaScript
truthiness test, under which the number 0 is falsy. -/
def normalizedCode (code : Option Nat) : CodeField :=
  match code with
  | none => CodeField.null
  | some n => if n = 0 then CodeField.null else CodeField.num n

/-! ## Severity coloring of the first rendered line (`format`, lines 359-389) -/

def escChar : Char := Char.ofNat 27

/-- `` `\u001b[1;31m${str}\u001b[0m` `` -/
def errorColorize (s : List Char) : List Char :=
  (escChar :: "[1;31m".data) ++ s ++ (escChar :: "[0m".data)

/-- `` `\u001b[1;32m${str}\u001b[0m` `` -/
def warningColorize (s : List Char) : List Char :=
  (escChar :: "[1;32m".data) ++ s ++ (escChar :: "[0m".data)

/-- `` `\u001b[1;36m${str}\u001b[0m` `` -/
def infoColorize (s : List Char) : List Char :=
  (escChar :: "[1;36m".data) ++ s ++ (escChar :: "[0m".data)

/-- `renderType` (lines 359-364): Hint shares the Information color. -/
def renderType : DiagnosticSeverity → (List Char → List Char)
  | DiagnosticSeverity.Error => errorColorize
  | DiagnosticSeverity.Warning => warningColorize
  | DiagnosticSeverity.Information => infoColorize
  | DiagnosticSeverity.Hint => infoColorize

/-- `diagnostic.severity || DiagnosticSeverity.Error`: an absent severity
falls back to Error (all enum members are truthy numbers 1-4). -/
def severityOrDefault (s : Option DiagnosticSeverity) : DiagnosticSeverity :=
  s.getD DiagnosticSeverity.Error

/-- The per-line step of `format` at index 0:
`line = renderType[severity || Error](line.substring(3, line.length))`;
lines at other indices are left as they are by this step
(`String.substring` clamps, so lines shorter than 3 become empty,
exactly as `List.drop 3`). -/
def formatFirstLineStep (sev : Option DiagnosticSeverity) :
    List (List Char) → List (List Char)
  | [] => []
  | l :: rest => renderType (severityOrDefault sev) (l.drop 3) :: rest

/-! ## Debounced reload trigger (`handleProjectChange`, lines 45-51) -/

def debounceWindow : Nat := 1500

/-- One content-change event at time `t`:
`if (timer) clearTimeout(timer); timer = setTimeout(..., 1500)`.
A pending timer whose deadline is not in the future fired before this
event (the firing time is appended); otherwise it is cancelled.  Either
way a fresh timer is armed for `t + 1500`. -/
def debounceStep : Option Nat × List Nat → Nat → Option Nat × List Nat
  | (pending, fired), t =>
    match pending with
    | some d =>
        if d ≤ t then (some (t + debounceWindow), fired ++ [d])
        else (some (t + debounceWindow), fired)
    | none => (some (t + debounceWindow), fired)

/-- The times at which the debounce timer fires, given content-change
events at the given times: the events are folded through `debounceStep`,
and a timer still pending after the last event fires at its deadline. -/
def debounceFirings (events : List Nat) : List Nat :=
  let s := events.foldl debounceStep (none, [])
  s.2 ++ (match s.1 with | some d => [d] | none => [])

/-- Each timer expiry runs `triggerAllDiagnostics` (lines 216-220), which
triggers a re-diagnosis for every registered language handler; a run is
recorded as the pair of the firing time and the full handler list. -/
def triggerAllCalls {α : Type} (handlers : List α) (events : List Nat) :
    List (Nat × List α) :=
  (debounceFirings events).map (fun t => (t, handlers))

/-! ## File-watcher registration (lines 53-60) and `reloadProjects` (lines 180-184) -/

inductive WatchedFile where
  | configFile
  | packageFile
deriving DecidableEq, Repr

inductive FsEvent where
  | create
  | delete
  | change
deriving DecidableEq, Repr

inductive HostAction where
  | reInitializeDiagnostics
  | executeReloadProjects
  | triggerAllDiagnostics
deriving DecidableEq, Repr

/-- `reloadProjects` (lines 180-184): reinitialize the diagnostics
manager, send the backend a reloadProjects command, trigger all
diagnostics — in this order, synchronously. -/
def reloadProjectsActions : List HostAction :=
  [HostAction.reInitializeDiagnostics, HostAction.executeReloadProjects,
   HostAction.triggerAllDiagnostics]

inductive WatcherReaction where
  | immediateReload
  | debounceContentChange
  | unregistered
deriving DecidableEq, Repr

/-- The handlers registered on the two watchers (lines 53-60):
`configFileWatcher` registers `reloadProjects` on create and delete and
`handleProjectChange` on change; `packageFileWatcher` registers
`reloadProjects` on create and `handleProjectChange` on change only —
no handler is registered for a package-file deletion. -/
def watcherReaction : WatchedFile → FsEvent → WatcherReaction
  | WatchedFile.configFile, FsEvent.create => WatcherReaction.immediateReload
  | WatchedFile.configFile, FsEvent.delete => WatcherReaction.immediateReload
  | WatchedFile.configFile, FsEvent.change => WatcherReaction.debounceContentChange
  | WatchedFile.packageFile, FsEvent.create => WatcherReaction.immediateReload
  | WatchedFile.packageFile, FsEvent.change => WatcherReaction.debounceContentChange
  | WatchedFile.packageFile, FsEvent.delete => WatcherReaction.unregistered

/-- Dispatch of one watcher event given the pending debounce deadline:
an immediate reload performs `reloadProjectsActions` now and leaves any
pending timer untouched; a content change performs nothing now and
re-arms the timer; an unregistered event does nothing at all. -/
def dispatchEvent (pendingTimer : Option Nat) (now : Nat)
    (f : WatchedFile) (e : FsEvent) : List HostAction × Option Nat :=
  match watcherReaction f e with
  | WatcherReaction.immediateReload => (reloadProjectsActions, pendingTimer)
  | WatcherReaction.debounceContentChange => ([], some (now + debounceWindow))
  | WatcherReaction.unregistered => ([], pendingTimer)

/-! ## Diagnostic routing (`findLanguage` lines 198-208,
`diagnosticsReceived` lines 230-242) -/

/-- A registered language provider: both ownership predicates may throw
(modelled with `Except`). -/
structure Handler where
  id : String
  handlesDoc : String → String → Except String Bool
  handlesUri : String → Except String Bool

/-- `languages.find(language => ...)`: first handler whose predicate
returns true; a throwing predicate propagates. -/
def findFirstHandler (p : Handler → Except String Bool) :
    List Handler → Except String (Option Handler)
  | [] => Except.ok none
  | h :: rest =>
    match p h with
    | Except.error e => Except.error e
    | Except.ok true => Except.ok (some h)
    | Except.ok false => findFirstHandler p rest

/-- The body of the `try` block of `findLanguage`: get the document (may
throw), then ask each handler in registration order whether it handles
the tracked document, or, for an untracked file, the bare URI. -/
def findLanguageRaw (getDocument : Except String (Option String))
    (handlers : List Handler) (uri : String) :
    Except String (Option Handler) :=
  match getDocument with
  | Except.error e => Except.error e
  | Except.ok (some doc) => findFirstHandler (fun h => h.handlesDoc uri doc) handlers
  | Except.ok none => findFirstHandler (fun h => h.handlesUri uri) handlers

/-- `findLanguage` with its `catch { return undefined }`: any failure of
the lookup machinery is caught and turned into "no handler". -/
def findLanguage (getDocument : Except String (Option String))
    (handlers : List Handler) (uri : String) : Option Handler :=
  match findLanguageRaw getDocument handlers uri with
  | Except.error _ => none
  | Except.ok r => r

/-- `diagnosticsReceived`: the handlers a batch is delivered to — the
single matched handler, or none at all. -/
def diagnosticsReceivedDeliveries (getDocument : Except String (Option String))
    (handlers : List Handler) (uri : String) : List Handler :=
  match findLanguage getDocument handlers uri with
  | some h => [h]
  | none => []

/-! ## Backtick-aware escaping (`replaceBackticksExceptCodeBlocks`,
lines 326-345): the fence regex (non-greedy, replaced by a NUL
placeholder), angle-bracket escaping, the single-backtick recoloring
regex, and the placeholder restoration, each modelled as a recursive
scanner with the exact JavaScript regex semantics; plus the segment
decomposition used to state the claim about them. -/

def nulChar : Char := Char.ofNat 0

def btChar : Char := Char.ofNat 96

def blueMark : List Char := escChar :: "[1;34m".data

def resetMark : List Char := escChar :: "[0m".data

def tripleBT : List Char := [btChar, btChar, btChar]

def startsWithTriple : List Char → Bool
  | a :: b :: c :: _ => a == btChar && b == btChar && c == btChar
  | _ => false

def splitTriple : List Char → Option (List Char × List Char)
  | [] => none
  | c :: r =>
    if startsWithTriple (c :: r) then some ([], r.drop 2)
    else (splitTriple r).map (fun p => (c :: p.1, p.2))

theorem splitTriple_length :
    ∀ (l : List Char) (a b : List Char), splitTriple l = some (a, b) →
      b.length + 3 ≤ l.length := by
  intro l
  induction l with
  | nil => intro a b h; simp [splitTriple] at h
  | cons c r ih =>
    intro a b h
    rw [splitTriple] at h
    by_cases ht : startsWithTriple (c :: r) = true
    · rw [if_pos ht] at h
      have hr : 2 ≤ r.length := by
        match r, ht with
        | x :: y :: r', _ => simp
      injection h with h1
      injection h1 with h2 h3
      subst h3
      simp [List.length_drop]
      omega
    · rw [if_neg ht] at h
      match hs : splitTriple r with
      | none => rw [hs] at h; simp at h
      | some (a', b') =>
        rw [hs] at h
        simp at h
        obtain ⟨h1, h2⟩ := h
        have := ih a' b' hs
        subst h2
        simp
        omega

def extractFences : List Char → List Char × List (List Char)
  | [] => ([], [])
  | c :: r =>
    if startsWithTriple (c :: r) then
      match h : splitTriple (r.drop 2) with
      | some (mid, rest) =>
          let q := extractFences rest
          (nulChar :: q.1, (tripleBT ++ mid ++ tripleBT) :: q.2)
      | none =>
          let q := extractFences r
          (c :: q.1, q.2)
    else
      let q := extractFences r
      (c :: q.1, q.2)
termination_by l => l.length
decreasing_by
  · have h1 := splitTriple_length (r.drop 2) mid rest h
    have h2 : (r.drop 2).length ≤ r.length := by simp
    simp only [List.length_cons]
    omega
  · simp only [List.length_cons]; omega
  · simp only [List.length_cons]; omega

def escapeAngles : List Char → List Char
  | [] => []
  | c :: r =>
    (if c = '<' then ['\\', '<'] else if c = '>' then ['\\', '>'] else [c])
      ++ escapeAngles r

def cbAux : List Char → Option (List Char) → List Char
  | [], none => []
  | [], some acc => btChar :: acc.reverse
  | c :: r, none =>
      if c = btChar then cbAux r (some []) else c :: cbAux r none
  | c :: r, some [] =>
      if c = btChar then btChar :: cbAux r (some [])
      else cbAux r (some [c])
  | c :: r, some (a :: acc) =>
      if c = btChar then
        blueMark ++ (a :: acc).reverse ++ resetMark ++ cbAux r none
      else cbAux r (some (c :: a :: acc))

def colorBackticks (l : List Char) : List Char := cbAux l none

def restoreFences : List Char → List (List Char) → List Char
  | [], _ => []
  | c :: r, q =>
      if c = nulChar then q.headD [] ++ restoreFences r q.tail
      else c :: restoreFences r q

def replaceBackticksExceptCodeBlocks (text : List Char) : List Char :=
  let p := extractFences text
  restoreFences (colorBackticks (escapeAngles p.1)) p.2

def noTriple : List Char → Bool
  | [] => true
  | c :: r => !startsWithTriple (c :: r) && noTriple r

def cbFinal : List Char → Option (List Char) → Option (List Char)
  | [], st => st
  | c :: r, none => if c = btChar then cbFinal r (some []) else cbFinal r none
  | c :: r, some [] =>
      if c = btChar then cbFinal r (some []) else cbFinal r (some [c])
  | c :: r, some (a :: acc) =>
      if c = btChar then cbFinal r none else cbFinal r (some (c :: a :: acc))

inductive Seg where
  | out (s : List Char)
  | fence (body : List Char)

def renderSeg : Seg → List Char
  | Seg.out s => s
  | Seg.fence b => tripleBT ++ b ++ tripleBT

def renderSegs : List Seg → List Char
  | [] => []
  | s :: rest => renderSeg s ++ renderSegs rest

def escapeSeg : Seg → List Char
  | Seg.out s => colorBackticks (escapeAngles s)
  | Seg.fence b => tripleBT ++ b ++ tripleBT

def specEscapeSegs : List Seg → List Char
  | [] => []
  | s :: rest => escapeSeg s ++ specEscapeSegs rest

def goodSeg : Seg → Bool
  | Seg.out s => noTriple s && !s.contains nulChar && (cbFinal s none).isNone
      && s.getLast? != some btChar
  | Seg.fence b => noTriple b && !b.contains nulChar && b.getLast? != some btChar

def phSegs : List Seg → List Char
  | [] => []
  | Seg.out s :: rest => s ++ phSegs rest
  | Seg.fence _ :: rest => nulChar :: phSegs rest

def fenceSegs : List Seg → List (List Char)
  | [] => []
  | Seg.out _ :: rest => fenceSegs rest
  | Seg.fence b :: rest => (tripleBT ++ b ++ tripleBT) :: fenceSegs rest

def phESegs : List Seg → List Char
  | [] => []
  | Seg.out s :: rest => escapeAngles s ++ phESegs rest
  | Seg.fence _ :: rest => nulChar :: phESegs rest

/-- Relating scanner states across angle-bracket escaping: both outside a
span, or both inside with agreeing emptiness of the collected content. -/
def StRel (st st' : Option (List Char)) : Prop :=
  (st = none ∧ st' = none) ∨
    (∃ a b, st = some a ∧ st' = some b ∧ (a = [] ↔ b = []))

def phCSegs : List Seg → List Char
  | [] => []
  | Seg.out s :: rest => colorBackticks (escapeAngles s) ++ phCSegs rest
  | Seg.fence _ :: rest => nulChar :: phCSegs rest

/-! ## Link-markup substitutions of `format` (lines 390-396): the
collapse regex for the link + filename + icon pattern (greedy groups with
ordered backtracking, lazy dot) and the icon-only hyperlink strip regex
(greedy dot-star), modelled as ordered-search matchers; the length
theorems interleaved here justify termination of the global-substitution
scanners. -/

def quoteChar : Char := Char.ofNat 39
def pageChar : Char := Char.ofNat 128196
def linkIconChar : Char := Char.ofNat 128279
def globeIconChar : Char := Char.ofNat 127760

def nonQuoteSpaceRun : List Char → List Char × List Char
  | [] => ([], [])
  | c :: r =>
      if c = quoteChar ∨ c = ' ' then ([], c :: r)
      else ((c :: (nonQuoteSpaceRun r).1), (nonQuoteSpaceRun r).2)

def findPageClose : List Char → Option (List Char × List Char)
  | [] => none
  | [_] => none
  | c :: d :: r =>
      if c = pageChar ∧ d = ']' then some ([], r)
      else (findPageClose (d :: r)).map (fun p => (c :: p.1, p.2))

def tryDotLazy : List Char → Option (List Char × List Char)
  | [] => none
  | c :: r => (findPageClose r).map (fun p => (c :: p.1, p.2))

def tryGroup3 : List Char → Option (List Char)
  | [] => none
  | c :: r =>
      if c = quoteChar then
        match tryDotLazy r with
        | some p => some p.2
        | none => (tryDotLazy (c :: r)).map Prod.snd
      else (tryDotLazy (c :: r)).map Prod.snd

def tryKs (run after : List Char) : Nat → Option (List Char × List Char)
  | 0 => none
  | k + 1 =>
      match tryGroup3 (run.drop (k + 1) ++ after) with
      | some rest => some (run.take (k + 1), rest)
      | none => tryKs run after k

def tryAfterBracket (s : List Char) : Option (List Char × List Char) :=
  tryKs (nonQuoteSpaceRun s).1 (nonQuoteSpaceRun s).2 (nonQuoteSpaceRun s).1.length

def tryMatchTail : List Char → Option (List Char × List Char)
  | [] => none
  | q :: s2 =>
      if q = quoteChar then
        match tryAfterBracket s2 with
        | some res => some res
        | none => tryAfterBracket (q :: s2)
      else tryAfterBracket (q :: s2)

def tryMatchAt : List Char → Option (List Char × List Char)
  | [] => none
  | c :: s1 => if c = '[' then tryMatchTail s1 else none

theorem findPageClose_length :
    ∀ (l a b : List Char), findPageClose l = some (a, b) →
      b.length + 2 ≤ l.length := by
  intro l
  induction l with
  | nil => intro a b h; simp [findPageClose] at h
  | cons c r ih =>
    intro a b h
    match r, h with
    | [], h => simp [findPageClose] at h
    | d :: r', h =>
      rw [findPageClose] at h
      by_cases hc : c = pageChar ∧ d = ']'
      · rw [if_pos hc] at h
        simp at h
        obtain ⟨-, rfl⟩ := h
        simp
      · rw [if_neg hc] at h
        match hs : findPageClose (d :: r') with
        | none => rw [hs] at h; simp at h
        | some (a', b') =>
          rw [hs] at h
          simp at h
          obtain ⟨-, rfl⟩ := h
          have := ih a' b' hs
          simp at this ⊢
          omega

theorem tryDotLazy_length :
    ∀ (l a b : List Char), tryDotLazy l = some (a, b) →
      b.length + 3 ≤ l.length := by
  intro l a b h
  match l, h with
  | [], h => simp [tryDotLazy] at h
  | c :: r, h =>
    rw [tryDotLazy] at h
    match hs : findPageClose r with
    | none => rw [hs] at h; simp at h
    | some (a', b') =>
      rw [hs] at h
      simp at h
      obtain ⟨-, rfl⟩ := h
      have := findPageClose_length r a' b' hs
      simp
      omega

theorem tryGroup3_length :
    ∀ (l rest : List Char), tryGroup3 l = some rest →
      rest.length + 3 ≤ l.length := by
  intro l rest h
  match l, h with
  | [], h => simp [tryGroup3] at h
  | c :: r, h =>
    rw [tryGroup3] at h
    by_cases hc : c = quoteChar
    · rw [if_pos hc] at h
      match hs : tryDotLazy r with
      | some p =>
        rw [hs] at h
        simp at h
        subst h
        have := tryDotLazy_length r p.1 p.2 hs
        simp at this ⊢
        omega
      | none =>
        rw [hs] at h
        match hs2 : tryDotLazy (c :: r) with
        | none => rw [hs2] at h; simp at h
        | some p =>
          rw [hs2] at h
          simp at h
          subst h
          exact tryDotLazy_length (c :: r) p.1 p.2 hs2
    · rw [if_neg hc] at h
      match hs2 : tryDotLazy (c :: r) with
      | none => rw [hs2] at h; simp at h
      | some p =>
        rw [hs2] at h
        simp at h
        subst h
        exact tryDotLazy_length (c :: r) p.1 p.2 hs2

theorem tryKs_length :
    ∀ (k : Nat) (run after g2 rest : List Char),
      tryKs run after k = some (g2, rest) →
      rest.length + 3 ≤ run.length + after.length := by
  intro k
  induction k with
  | zero => intro run after g2 rest h; simp [tryKs] at h
  | succ k ih =>
    intro run after g2 rest h
    rw [tryKs] at h
    match hs : tryGroup3 (run.drop (k + 1) ++ after) with
    | some rest' =>
      rw [hs] at h
      simp at h
      obtain ⟨-, rfl⟩ := h
      have := tryGroup3_length _ _ hs
      simp at this
      have hd : (run.drop (k + 1)).length ≤ run.length := by simp
      omega
    | none =>
      rw [hs] at h
      exact ih run after g2 rest h

theorem nonQuoteSpaceRun_eq :
    ∀ (l : List Char), (nonQuoteSpaceRun l).1 ++ (nonQuoteSpaceRun l).2 = l := by
  intro l
  induction l with
  | nil => rfl
  | cons c r ih =>
    rw [nonQuoteSpaceRun]
    by_cases hc : c = quoteChar ∨ c = ' '
    · rw [if_pos hc]
      rfl
    · rw [if_neg hc]
      simpa using ih

theorem tryMatchAt_length :
    ∀ (s g2 rest : List Char), tryMatchAt s = some (g2, rest) →
      rest.length < s.length := by
  intro s g2 rest h
  have hab : ∀ (t g2 rest : List Char), tryAfterBracket t = some (g2, rest) →
      rest.length + 3 ≤ t.length := by
    intro t g2' rest' h'
    rw [tryAfterBracket] at h'
    have := tryKs_length _ _ _ _ _ h'
    have he := nonQuoteSpaceRun_eq t
    have : (nonQuoteSpaceRun t).1.length + (nonQuoteSpaceRun t).2.length
        = t.length := by
      rw [← List.length_append, he]
    omega
  match s, h with
  | [], h => simp [tryMatchAt] at h
  | c :: s1, h =>
    rw [tryMatchAt] at h
    by_cases hc : c = '['
    · rw [if_pos hc] at h
      match s1, h with
      | [], h => simp [tryMatchTail] at h
      | q :: s2, h =>
        rw [tryMatchTail] at h
        by_cases hq : q = quoteChar
        · rw [if_pos hq] at h
          match hs : tryAfterBracket s2 with
          | some res =>
            rw [hs] at h
            simp at h
            have hlen := hab s2 res.1 res.2 (by rw [hs])
            rw [h] at hlen
            simp at hlen ⊢
            omega
          | none =>
            rw [hs] at h
            have := hab (q :: s2) g2 rest h
            simp at this ⊢
            omega
        · rw [if_neg hq] at h
          have := hab (q :: s2) g2 rest h
          simp at this ⊢
          omega
    · rw [if_neg hc] at h
      simp at h

def collapseLinks : List Char → List Char
  | [] => []
  | c :: r =>
    match h : tryMatchAt (c :: r) with
    | some p => '[' :: (p.1 ++ (' ' :: pageChar :: ']' :: collapseLinks p.2))
    | none => c :: collapseLinks r
termination_by l => l.length
decreasing_by
  · have := tryMatchAt_length _ _ _ h
    simpa using this
  · simp

def afterLastParen : List Char → Option (List Char)
  | [] => none
  | c :: r =>
    match afterLastParen r with
    | some b => some b
    | none => if c = ')' then some r else none

def matchIconAt : List Char → Option (List Char)
  | a :: i :: b :: p :: r =>
      if a = '[' ∧ (i = linkIconChar ∨ i = globeIconChar) ∧ b = ']' ∧ p = '('
      then afterLastParen r
      else none
  | _ => none

theorem afterLastParen_length :
    ∀ (l b : List Char), afterLastParen l = some b → b.length < l.length := by
  intro l
  induction l with
  | nil => intro b h; simp [afterLastParen] at h
  | cons c r ih =>
    intro b h
    rw [afterLastParen] at h
    match hs : afterLastParen r with
    | some b' =>
      rw [hs] at h
      simp at h
      subst h
      have := ih b' hs
      simp
      omega
    | none =>
      rw [hs] at h
      by_cases hc : c = ')'
      · rw [if_pos hc] at h
        simp at h
        subst h
        simp
      · rw [if_neg hc] at h
        simp at h

theorem matchIconAt_length :
    ∀ (s rest : List Char), matchIconAt s = some rest →
      rest.length < s.length := by
  intro s rest h
  match s, h with
  | [], h => simp [matchIconAt] at h
  | [a], h => simp [matchIconAt] at h
  | [a, b], h => simp [matchIconAt] at h
  | [a, b, c], h => simp [matchIconAt] at h
  | a :: i :: b :: p :: r, h =>
    rw [matchIconAt] at h
    by_cases hc : a = '[' ∧ (i = linkIconChar ∨ i = globeIconChar)
        ∧ b = ']' ∧ p = '('
    · rw [if_pos hc] at h
      have := afterLastParen_length r rest h
      simp
      omega
    · rw [if_neg hc] at h
      simp at h

def stripIconLinks : List Char → List Char
  | [] => []
  | c :: r =>
    match h : matchIconAt (c :: r) with
    | some rest => stripIconLinks rest
    | none => c :: stripIconLinks r
termination_by l => l.length
decreasing_by
  · have := matchIconAt_length _ _ h
    simpa using this
  · simp

/-- The two line-level link substitutions of `format` (lines 390-396):
the collapse of the link + filename + icon pattern runs always, the
icon-only hyperlink strip only when link display is disabled. -/
def linkSubstitutions (showLink : Bool) (line : List Char) : List Char :=
  let l1 := collapseLinks line
  if showLink = false then stripIconLinks l1 else l1

/-- `formatDiagnostic` (lines 371-376) always calls `format` with
`showLink: false`. -/
def defaultShowLink : Bool := false

/-! ## Theorems -/

/-- C1: the severity classifier returns Warning exactly on the style-check
downgrade (flag set, code in the style-check set, category error); otherwise
it maps error to Error, warning to Warning, suggestion to Hint, anything
else to Error; and with the flag false the same style-check error inputs
give Error. -/
theorem getDiagnosticSeverity_spec :
    ∀ (flag : Bool) (code : Option Nat) (cat : String),
      (flag = true → isStyleCheckDiagnostic code = true → cat = "error" →
        getDiagnosticSeverity flag code cat = DiagnosticSeverity.Warning) ∧
      (¬ (flag = true ∧ isStyleCheckDiagnostic code = true ∧ cat = "error") →
        getDiagnosticSeverity flag code cat =
          (if cat = "error" then DiagnosticSeverity.Error
           else if cat = "warning" then DiagnosticSeverity.Warning
           else if cat = "suggestion" then DiagnosticSeverity.Hint
           else DiagnosticSeverity.Error)) ∧
      (flag = false → isStyleCheckDiagnostic code = true → cat = "error" →
        getDiagnosticSeverity flag code cat = DiagnosticSeverity.Error) := by
  intro flag code cat
  refine ⟨?_, ?_, ?_⟩
  · intro hf hs hc
    subst hf hc
    simp [getDiagnosticSeverity, hs]
  · intro h
    by_cases hf : flag = true
    · by_cases hs : isStyleCheckDiagnostic code = true
      · have hc : ¬ cat = "error" := fun hc => h ⟨hf, hs, hc⟩
        subst hf
        simp [getDiagnosticSeverity, hs, hc]
      · subst hf
        simp only [Bool.not_eq_true] at hs
        simp [getDiagnosticSeverity, hs]
    · simp only [Bool.not_eq_true] at hf
      subst hf
      simp [getDiagnosticSeverity]
  · intro hf hs hc
    subst hf hc
    simp [getDiagnosticSeverity, hs]

/-- Witness for C1 at the end-to-end scenario of the spec: code 6133,
category error, flag true gives Warning; flag false gives Error. -/
theorem getDiagnosticSeverity_spec_witness :
    getDiagnosticSeverity true (some 6133) "error" = DiagnosticSeverity.Warning ∧
    getDiagnosticSeverity false (some 6133) "error" = DiagnosticSeverity.Error :=
  ⟨(getDiagnosticSeverity_spec true (some 6133) "error").1 rfl (by decide) rfl,
   (getDiagnosticSeverity_spec false (some 6133) "error").2.2 rfl (by decide) rfl⟩

/-- C2: coordinate conversion returns the fallback range (0,0)-(0,1) when
either endpoint is absent, and otherwise subtracts 1 from each line and
offset field of both endpoints; it is a total function, so it never fails. -/
theorem toZeroBasedRange_spec :
    ∀ (s e : Option TsPosition),
      ((s = none ∨ e = none) → toZeroBasedRange s e = ⟨0, 0, 0, 1⟩) ∧
      (∀ sp ep, s = some sp → e = some ep →
        toZeroBasedRange s e =
          ⟨sp.line - 1, sp.offset - 1, ep.line - 1, ep.offset - 1⟩) := by
  intro s e
  constructor
  · rintro (rfl | rfl)
    · cases e <;> rfl
    · cases s <;> rfl
  · rintro sp ep rfl rfl
    rfl

/-- Witness for C2 at the spec's end-to-end scenario: the 1-based span
(5,3)-(5,10) becomes (4,2)-(4,9), and an absent start gives the fallback. -/
theorem toZeroBasedRange_spec_witness :
    toZeroBasedRange (some ⟨5, 3⟩) (some ⟨5, 10⟩) = ⟨4, 2, 4, 9⟩ ∧
    toZeroBasedRange none (some ⟨5, 10⟩) = ⟨0, 0, 0, 1⟩ :=
  ⟨(toZeroBasedRange_spec (some ⟨5, 3⟩) (some ⟨5, 10⟩)).2 ⟨5, 3⟩ ⟨5, 10⟩ rfl rfl,
   (toZeroBasedRange_spec none (some ⟨5, 10⟩)).1 (Or.inl rfl)⟩

/-- C8: the tag list contains Unnecessary iff `reportsUnnecessary`,
Deprecated iff `reportsDeprecated`, and when both are unset the whole
field is `none` (an explicit no-tags marker), never an empty list. -/
theorem diagnosticTags_spec :
    ∀ (ru rd : Bool),
      ((diagnosticTags ru rd).getD []).contains DiagnosticTag.Unnecessary = ru ∧
      ((diagnosticTags ru rd).getD []).contains DiagnosticTag.Deprecated = rd ∧
      (diagnosticTags ru rd = none ↔ (ru = false ∧ rd = false)) ∧
      diagnosticTags ru rd ≠ some [] := by
  decide

/-- C9 counterexample: a present code 0 is not passed through; the code's
JavaScript truthiness test sends it to the explicit null marker. -/
theorem normalizedCode_zero_counterexample :
    normalizedCode (some 0) = CodeField.null ∧
    normalizedCode (some 0) ≠ CodeField.num 0 := by
  decide

/-- C9 amended: a present nonzero code is passed through unchanged, and an
absent code, or the (falsy) code 0, becomes the explicit null marker. -/
theorem normalizedCode_spec :
    ∀ (c : Option Nat),
      (c = none → normalizedCode c = CodeField.null) ∧
      (∀ n, c = some n → n ≠ 0 → normalizedCode c = CodeField.num n) ∧
      (c = some 0 → normalizedCode c = CodeField.null) := by
  intro c
  refine ⟨?_, ?_, ?_⟩
  · rintro rfl; rfl
  · rintro n rfl hn
    simp [normalizedCode, hn]
  · rintro rfl; rfl

/-- Witness for C9 amended: code 2304 passes through, absent code becomes
null. -/
theorem normalizedCode_spec_witness :
    normalizedCode (some 2304) = CodeField.num 2304 ∧
    normalizedCode none = CodeField.null :=
  ⟨(normalizedCode_spec (some 2304)).2.1 2304 rfl (by decide),
   (normalizedCode_spec none).1 rfl⟩

/-- C10: the first rendered line is the markdown-rendered line minus its
first three characters, wrapped in the severity color; Hint is colored like
Information, a missing severity is colored like Error; all later lines are
left with their full text by this step. -/
theorem formatFirstLineStep_spec :
    ∀ (sev : Option DiagnosticSeverity) (lines : List (List Char)),
      (formatFirstLineStep sev lines).tail = lines.tail ∧
      (∀ l rest, lines = l :: rest →
        formatFirstLineStep sev lines =
          renderType (severityOrDefault sev) (l.drop 3) :: rest) ∧
      renderType DiagnosticSeverity.Hint =
        renderType DiagnosticSeverity.Information ∧
      severityOrDefault none = DiagnosticSeverity.Error := by
  intro sev lines
  refine ⟨?_, ?_, rfl, rfl⟩
  · cases lines <;> rfl
  · rintro l rest rfl
    rfl

/-- Witness for C10 on a concrete two-line message with no severity. -/
theorem formatFirstLineStep_spec_witness :
    formatFirstLineStep none ["## title".data, "body".data] =
      [errorColorize "title".data, "body".data] := by
  have h := (formatFirstLineStep_spec none ["## title".data, "body".data]).2.1
    "## title".data ["body".data] rfl
  simpa using h

/-- Folding a burst through `debounceStep`: while each next event arrives
before the pending deadline, the timer is cancelled and re-armed and
nothing fires. -/
theorem debounce_foldl_chain :
    ∀ (events : List Nat) (prev : Nat) (fired : List Nat),
      List.Chain' (fun a b => a ≤ b ∧ b < a + debounceWindow) (prev :: events) →
      events.foldl debounceStep (some (prev + debounceWindow), fired)
        = (some (events.getLastD prev + debounceWindow), fired) := by
  intro events
  induction events with
  | nil => intro prev fired _; rfl
  | cons t rest ih =>
    intro prev fired hchain
    rw [List.chain'_cons] at hchain
    obtain ⟨⟨-, hlt⟩, hchain⟩ := hchain
    have hstep : debounceStep (some (prev + debounceWindow), fired) t
        = (some (t + debounceWindow), fired) := by
      simp [debounceStep, Nat.not_le.mpr hlt]
    rw [List.foldl_cons, hstep, ih t fired hchain, List.getLastD_cons]

/-- C3: a burst of content-change events in which each event arrives while
the previous timer is still pending produces exactly one
`triggerAllDiagnostics` run, covering every registered handler, fired
1500 ms after the last event of the burst. -/
theorem debounce_coalesce_spec :
    ∀ {α : Type} (handlers : List α) (t : Nat) (rest : List Nat),
      List.Chain' (fun a b => a ≤ b ∧ b < a + debounceWindow) (t :: rest) →
      triggerAllCalls handlers (t :: rest)
        = [(rest.getLastD t + debounceWindow, handlers)] := by
  intro α handlers t rest hchain
  have h0 : debounceStep (none, []) t = (some (t + debounceWindow), []) := rfl
  have h := debounce_foldl_chain rest t [] hchain
  simp [triggerAllCalls, debounceFirings, h0, h]

/-- Witness for C3: three events at 0, 100, 1200 (each within 1500 ms of
the previous) produce one run at 2700 for both registered handlers. -/
theorem debounce_coalesce_spec_witness :
    triggerAllCalls ["typescript", "javascript"] [0, 100, 1200]
      = [(2700, ["typescript", "javascript"])] := by
  have h := debounce_coalesce_spec ["typescript", "javascript"] 0 [100, 1200]
    (by norm_num [List.chain'_cons, debounceWindow])
  simpa using h

/-- C4 counterexample: a deletion event on the watched package manifest
file performs no action at all — `packageFileWatcher` registers no
`onDidDelete` handler — contradicting the claim that every creation or
deletion event on a watched project/package manifest file immediately
reinitializes, reloads and re-diagnoses. -/
theorem packageFileDelete_counterexample :
    (dispatchEvent (some 9) 5 WatchedFile.packageFile FsEvent.delete).1 = [] ∧
    ([] : List HostAction) ≠ reloadProjectsActions := by
  decide

/-- C4 amended: every creation or deletion event on the watched config
file, and every creation event on the watched package manifest file,
immediately (with no delay, and leaving any pending debounce timer
untouched) reinitializes diagnostic state, instructs the backend to
reload project structure and triggers full re-diagnosis, in that order;
a deletion event on the package manifest file has no registered handler
and performs nothing. -/
theorem watcherDispatch_spec :
    ∀ (timer : Option Nat) (now : Nat) (f : WatchedFile) (e : FsEvent),
      ((f = WatchedFile.configFile ∧ (e = FsEvent.create ∨ e = FsEvent.delete)) ∨
          (f = WatchedFile.packageFile ∧ e = FsEvent.create) →
        dispatchEvent timer now f e = (reloadProjectsActions, timer)) ∧
      (f = WatchedFile.packageFile → e = FsEvent.delete →
        dispatchEvent timer now f e = ([], timer)) ∧
      reloadProjectsActions =
        [HostAction.reInitializeDiagnostics, HostAction.executeReloadProjects,
         HostAction.triggerAllDiagnostics] := by
  intro timer now f e
  refine ⟨?_, ?_, rfl⟩
  · rintro (⟨rfl, rfl | rfl⟩ | ⟨rfl, rfl⟩) <;> rfl
  · rintro rfl rfl
    rfl

/-- Witness for C4 amended: a config-file deletion with a pending timer
immediately performs the three reload actions and leaves the timer. -/
theorem watcherDispatch_spec_witness :
    dispatchEvent (some 7) 3 WatchedFile.configFile FsEvent.delete
      = (reloadProjectsActions, some 7) ∧
    dispatchEvent (some 7) 3 WatchedFile.packageFile FsEvent.delete
      = ([], some 7) :=
  ⟨(watcherDispatch_spec (some 7) 3 WatchedFile.configFile FsEvent.delete).1
      (Or.inl ⟨rfl, Or.inr rfl⟩),
   (watcherDispatch_spec (some 7) 3 WatchedFile.packageFile FsEvent.delete).2.1
      rfl rfl⟩

/-- C5: when the lookup machinery throws, or when no registered handler
claims the file, the batch is delivered to zero handlers;
`diagnosticsReceivedDeliveries` is a total function into handler lists, so
no exception escapes the routing boundary. -/
theorem diagnosticsReceived_drop_spec :
    ∀ (getDocument : Except String (Option String))
      (handlers : List Handler) (uri : String),
      (∀ e, findLanguageRaw getDocument handlers uri = Except.error e →
        diagnosticsReceivedDeliveries getDocument handlers uri = []) ∧
      (findLanguageRaw getDocument handlers uri = Except.ok none →
        diagnosticsReceivedDeliveries getDocument handlers uri = []) := by
  intro getDocument handlers uri
  constructor
  · intro e he
    simp [diagnosticsReceivedDeliveries, findLanguage, he]
  · intro h
    simp [diagnosticsReceivedDeliveries, findLanguage, h]

/-- Witness for C5: a handler whose document predicate throws, and a
handler that declines the file, both lead to an empty delivery list. -/
theorem diagnosticsReceived_drop_spec_witness :
    diagnosticsReceivedDeliveries (Except.ok (some "doc"))
      [⟨"ts", fun _ _ => Except.error "boom", fun _ => Except.ok false⟩]
      "file:///a.ts" = [] ∧
    diagnosticsReceivedDeliveries (Except.ok (some "doc"))
      [⟨"ts", fun _ _ => Except.ok false, fun _ => Except.ok false⟩]
      "file:///a.ts" = [] :=
  ⟨(diagnosticsReceived_drop_spec (Except.ok (some "doc"))
      [⟨"ts", fun _ _ => Except.error "boom", fun _ => Except.ok false⟩]
      "file:///a.ts").1 "boom" rfl,
   (diagnosticsReceived_drop_spec (Except.ok (some "doc"))
      [⟨"ts", fun _ _ => Except.ok false, fun _ => Except.ok false⟩]
      "file:///a.ts").2 rfl⟩

theorem startsWithTriple_head_ne {c : Char} (l : List Char) (hc : c ≠ btChar) :
    startsWithTriple (c :: l) = false := by
  match l with
  | [] => rfl
  | [b] => rfl
  | b :: d :: l' => simp [startsWithTriple, beq_eq_false_iff_ne.mpr hc]

theorem startsWithTriple_second_ne {a b : Char} (l : List Char) (hb : b ≠ btChar) :
    startsWithTriple (a :: b :: l) = false := by
  match l with
  | [] => rfl
  | d :: l' => simp [startsWithTriple, beq_eq_false_iff_ne.mpr hb]

theorem startsWithTriple_three (a b c : Char) (l l' : List Char) :
    startsWithTriple (a :: b :: c :: l) = startsWithTriple (a :: b :: c :: l') := by
  simp [startsWithTriple]

theorem noTriple_cons_false {c : Char} {s : List Char} (h : noTriple (c :: s) = true) :
    startsWithTriple (c :: s) = false := by
  rw [noTriple, Bool.and_eq_true] at h
  rw [← Bool.not_eq_true', h.1]

theorem noTriple_cons_tail {c : Char} {s : List Char} (h : noTriple (c :: s) = true) :
    noTriple s = true := by
  rw [noTriple, Bool.and_eq_true] at h
  exact h.2

/-- A nonempty prefix with no triple backtick and not ending in a backtick
cannot start a fence match, whatever follows it. -/
theorem startsWithTriple_append_false :
    ∀ (c : Char) (s t : List Char), noTriple (c :: s) = true →
      (c :: s).getLast? ≠ some btChar →
      startsWithTriple (c :: (s ++ t)) = false := by
  intro c s t hnt hlast
  match s with
  | [] =>
    have hc : c ≠ btChar := by
      intro h; exact hlast (by simp [h])
    exact startsWithTriple_head_ne _ hc
  | [d] =>
    have hd : d ≠ btChar := by
      intro h; exact hlast (by simp [h])
    exact startsWithTriple_second_ne _ hd
  | d :: e :: s' =>
    calc startsWithTriple (c :: d :: e :: (s' ++ t))
        = startsWithTriple (c :: d :: e :: s') := startsWithTriple_three _ _ _ _ _
      _ = false := noTriple_cons_false hnt

theorem extractFences_nil : extractFences [] = ([], []) := by
  rw [extractFences]

theorem extractFences_cons_not_triple (c : Char) (r : List Char)
    (h : startsWithTriple (c :: r) = false) :
    extractFences (c :: r) = ((c :: (extractFences r).1), (extractFences r).2) := by
  rw [extractFences]
  simp [h]

theorem extractFences_cons_triple (c : Char) (r mid rest : List Char)
    (htr : startsWithTriple (c :: r) = true)
    (hsp : splitTriple (r.drop 2) = some (mid, rest)) :
    extractFences (c :: r) =
      (nulChar :: (extractFences rest).1,
        (tripleBT ++ mid ++ tripleBT) :: (extractFences rest).2) := by
  rw [extractFences]
  simp only [htr, if_true]
  split
  · next mid' rest' heq =>
    rw [hsp] at heq
    simp only [Option.some.injEq, Prod.mk.injEq] at heq
    obtain ⟨h1, h2⟩ := heq
    subst h1; subst h2
    rfl
  · next heq =>
    rw [hsp] at heq
    simp at heq

/-- Scanning for fences walks over a fence-free prefix unchanged. -/
theorem extractFences_prepend :
    ∀ (s t : List Char), noTriple s = true → s.getLast? ≠ some btChar →
      extractFences (s ++ t) =
        (s ++ (extractFences t).1, (extractFences t).2) := by
  intro s
  induction s with
  | nil => intro t _ _; simp
  | cons c s' ih =>
    intro t hnt hlast
    have hcond : startsWithTriple (c :: (s' ++ t)) = false :=
      startsWithTriple_append_false c s' t hnt hlast
    rw [List.cons_append, extractFences_cons_not_triple _ _ hcond]
    have hs' : noTriple s' = true := noTriple_cons_tail hnt
    have hlast' : s'.getLast? ≠ some btChar := by
      match s' with
      | [] => simp
      | d :: s'' =>
        intro h
        exact hlast (by rw [List.getLast?_cons_cons]; exact h)
    rw [ih t hs' hlast']
    simp

theorem splitTriple_at_triple (t : List Char) :
    splitTriple (tripleBT ++ t) = some ([], t) := by
  rw [show tripleBT ++ t = btChar :: (btChar :: btChar :: t) from rfl]
  rw [splitTriple]
  simp [startsWithTriple]

/-- The lazy close search walks over a clean fence body and stops at the
real closing triple. -/
theorem splitTriple_prepend :
    ∀ (b t : List Char), noTriple b = true → b.getLast? ≠ some btChar →
      splitTriple (b ++ (tripleBT ++ t)) = some (b, t) := by
  intro b
  induction b with
  | nil => intro t _ _; simpa using splitTriple_at_triple t
  | cons c b' ih =>
    intro t hnt hlast
    have hcond : startsWithTriple (c :: (b' ++ (tripleBT ++ t))) = false :=
      startsWithTriple_append_false c b' (tripleBT ++ t) hnt hlast
    rw [List.cons_append, splitTriple]
    rw [if_neg (by simp [hcond])]
    have hb' : noTriple b' = true := noTriple_cons_tail hnt
    have hlast' : b'.getLast? ≠ some btChar := by
      match b' with
      | [] => simp
      | d :: b'' =>
        intro h
        exact hlast (by rw [List.getLast?_cons_cons]; exact h)
    rw [ih t hb' hlast']
    rfl

/-- A whole fence is matched: placeholder emitted, fence held aside. -/
theorem extractFences_fence (b t : List Char) (hnt : noTriple b = true)
    (hlast : b.getLast? ≠ some btChar) :
    extractFences (tripleBT ++ b ++ tripleBT ++ t) =
      (nulChar :: (extractFences t).1,
        (tripleBT ++ b ++ tripleBT) :: (extractFences t).2) := by
  have hshape : tripleBT ++ b ++ tripleBT ++ t
      = btChar :: (btChar :: btChar :: (b ++ (tripleBT ++ t))) := by
    simp [tripleBT]
  have htr : startsWithTriple
      (btChar :: (btChar :: btChar :: (b ++ (tripleBT ++ t)))) = true := by
    simp [startsWithTriple]
  have hdrop : (btChar :: btChar :: (b ++ (tripleBT ++ t))).drop 2
      = b ++ (tripleBT ++ t) := rfl
  have hsp := splitTriple_prepend b t hnt hlast
  rw [hshape, extractFences_cons_triple _ _ b t htr (by rw [hdrop]; exact hsp)]

theorem goodSeg_out {s : List Char} (h : goodSeg (Seg.out s) = true) :
    noTriple s = true ∧ nulChar ∉ s ∧ cbFinal s none = none
      ∧ s.getLast? ≠ some btChar := by
  simp [goodSeg, Option.isNone_iff_eq_none] at h
  tauto

theorem goodSeg_fence {b : List Char} (h : goodSeg (Seg.fence b) = true) :
    noTriple b = true ∧ nulChar ∉ b ∧ b.getLast? ≠ some btChar := by
  simp [goodSeg] at h
  tauto

/-- Extraction of fences from a rendered segment list: outside parts stay,
each fence becomes the placeholder and is pushed on the fence list. -/
theorem extractFences_renderSegs :
    ∀ (segs : List Seg), segs.all goodSeg = true →
      extractFences (renderSegs segs) = (phSegs segs, fenceSegs segs) := by
  intro segs
  induction segs with
  | nil => intro _; simpa [renderSegs, phSegs, fenceSegs] using extractFences_nil
  | cons sg rest ih =>
    intro hall
    rw [List.all_cons, Bool.and_eq_true] at hall
    obtain ⟨hg, hall⟩ := hall
    match sg with
    | Seg.out s =>
      obtain ⟨h1, _, _, h4⟩ := goodSeg_out hg
      rw [renderSegs, renderSeg, extractFences_prepend s _ h1 h4, ih hall]
      rfl
    | Seg.fence b =>
      obtain ⟨h1, _, h3⟩ := goodSeg_fence hg
      rw [renderSegs, renderSeg,
        show (tripleBT ++ b ++ tripleBT) ++ renderSegs rest
            = tripleBT ++ b ++ tripleBT ++ renderSegs rest by simp,
        extractFences_fence b _ h1 h3, ih hall]
      rfl

theorem escapeAngles_append (x y : List Char) :
    escapeAngles (x ++ y) = escapeAngles x ++ escapeAngles y := by
  induction x with
  | nil => simp [escapeAngles]
  | cons c r ih => simp [escapeAngles, ih]

theorem escapeAngles_nul_cons (r : List Char) :
    escapeAngles (nulChar :: r) = nulChar :: escapeAngles r := by
  rw [escapeAngles, if_neg (by decide), if_neg (by decide)]
  rfl

theorem escapeAngles_phSegs :
    ∀ (segs : List Seg), escapeAngles (phSegs segs) = phESegs segs := by
  intro segs
  induction segs with
  | nil => rfl
  | cons sg rest ih =>
    match sg with
    | Seg.out s => rw [phSegs, escapeAngles_append, ih]; rfl
    | Seg.fence b => rw [phSegs, escapeAngles_nul_cons, ih]; rfl

/-- When the backtick scanner comes back to the outside state at the end
of `x`, coloring distributes over concatenation at `x`. -/
theorem cbAux_append_of_final_none :
    ∀ (x : List Char) (st : Option (List Char)) (y : List Char),
      cbFinal x st = none →
      cbAux (x ++ y) st = cbAux x st ++ cbAux y none := by
  intro x
  induction x with
  | nil =>
    intro st y h
    rw [cbFinal] at h
    subst h
    simp [cbAux]
  | cons c r ih =>
    intro st y h
    by_cases hc : c = btChar
    · subst hc
      match st with
      | none =>
        rw [cbFinal, if_pos rfl] at h
        rw [List.cons_append, cbAux, if_pos rfl, cbAux, if_pos rfl, ih _ y h]
      | some [] =>
        rw [cbFinal, if_pos rfl] at h
        rw [List.cons_append, cbAux, if_pos rfl, cbAux, if_pos rfl, ih _ y h]
        rfl
      | some (a :: acc) =>
        rw [cbFinal, if_pos rfl] at h
        rw [List.cons_append, cbAux, if_pos rfl, cbAux, if_pos rfl, ih _ y h]
        simp
    · match st with
      | none =>
        rw [cbFinal, if_neg hc] at h
        rw [List.cons_append, cbAux, if_neg hc, cbAux, if_neg hc, ih _ y h]
        rfl
      | some [] =>
        rw [cbFinal, if_neg hc] at h
        rw [List.cons_append, cbAux, if_neg hc, cbAux, if_neg hc, ih _ y h]
      | some (a :: acc) =>
        rw [cbFinal, if_neg hc] at h
        rw [List.cons_append, cbAux, if_neg hc, cbAux, if_neg hc, ih _ y h]

theorem cbFinal_cons_ne_none {c : Char} (r : List Char) (hc : c ≠ btChar) :
    cbFinal (c :: r) none = cbFinal r none := by
  rw [cbFinal, if_neg hc]

theorem cbFinal_cons_ne_some {c : Char} (r a : List Char) (hc : c ≠ btChar) :
    cbFinal (c :: r) (some a) = cbFinal r (some (c :: a)) := by
  cases a <;> rw [cbFinal, if_neg hc]

theorem cbFinal_bt_none (r : List Char) :
    cbFinal (btChar :: r) none = cbFinal r (some []) := by
  rw [cbFinal, if_pos rfl]

theorem cbFinal_bt_some_nil (r : List Char) :
    cbFinal (btChar :: r) (some []) = cbFinal r (some []) := by
  rw [cbFinal, if_pos rfl]

theorem cbFinal_bt_some_cons (r : List Char) (a : Char) (as : List Char) :
    cbFinal (btChar :: r) (some (a :: as)) = cbFinal r none := by
  rw [cbFinal, if_pos rfl]

/-- A run of non-backtick characters passes through the outside state and
only grows the collected content of an open span. -/
theorem cbFinal_nonbt_prepend :
    ∀ (w : List Char), (∀ d ∈ w, d ≠ btChar) →
      ∀ (l : List Char),
        cbFinal (w ++ l) none = cbFinal l none ∧
        ∀ b, cbFinal (w ++ l) (some b) = cbFinal l (some (w.reverse ++ b)) := by
  intro w
  induction w with
  | nil => intro _ l; exact ⟨rfl, fun b => by simp⟩
  | cons d w' ih =>
    intro hw l
    have hd : d ≠ btChar := hw d (by simp)
    have hw' : ∀ e ∈ w', e ≠ btChar := fun e he => hw e (by simp [he])
    constructor
    · rw [List.cons_append, cbFinal_cons_ne_none _ hd, (ih hw' l).1]
    · intro b
      rw [List.cons_append, cbFinal_cons_ne_some _ _ hd, (ih hw' l).2 (d :: b)]
      simp

/-- Angle-bracket escaping inserts only non-backtick characters into
nonempty gaps, so it does not change whether the backtick scanner ends
outside a span. -/
theorem cbFinal_escape_rel :
    ∀ (s : List Char) (st st' : Option (List Char)), StRel st st' →
      (cbFinal s st = none ↔ cbFinal (escapeAngles s) st' = none) := by
  intro s
  induction s with
  | nil =>
    intro st st' hrel
    rcases hrel with ⟨rfl, rfl⟩ | ⟨a, b, rfl, rfl, -⟩ <;>
      simp [escapeAngles, cbFinal]
  | cons c r ih =>
    intro st st' hrel
    by_cases hbt : c = btChar
    · subst hbt
      rw [show escapeAngles (btChar :: r) = btChar :: escapeAngles r from by
        rw [escapeAngles, if_neg (by decide), if_neg (by decide)]; rfl]
      rcases hrel with ⟨rfl, rfl⟩ | ⟨a, b, rfl, rfl, hab⟩
      · rw [cbFinal_bt_none, cbFinal_bt_none]
        exact ih _ _ (Or.inr ⟨[], [], rfl, rfl, Iff.rfl⟩)
      · match a, b with
        | [], [] =>
          rw [cbFinal_bt_some_nil, cbFinal_bt_some_nil]
          exact ih _ _ (Or.inr ⟨[], [], rfl, rfl, Iff.rfl⟩)
        | [], b' :: bs => exact absurd (hab.mp rfl) (by simp)
        | a' :: as, [] => exact absurd (hab.mpr rfl) (by simp)
        | a' :: as, b' :: bs =>
          rw [cbFinal_bt_some_cons, cbFinal_bt_some_cons]
          exact ih _ _ (Or.inl ⟨rfl, rfl⟩)
    · have hesc : escapeAngles (c :: r)
          = (if c = '<' then ['\\', '<'] else if c = '>' then ['\\', '>']
             else [c]) ++ escapeAngles r := by
        rw [escapeAngles]
      set w := (if c = '<' then ['\\', '<'] else if c = '>' then ['\\', '>']
          else [c]) with hw
      have hwnb : ∀ d ∈ w, d ≠ btChar := by
        rw [hw]
        split_ifs with h1 h2
        · intro d hd
          simp at hd
          rcases hd with rfl | rfl <;> decide
        · intro d hd
          simp at hd
          rcases hd with rfl | rfl <;> decide
        · intro d hd
          simp at hd
          subst hd
          exact hbt
      have hwne : w ≠ [] := by
        rw [hw]; split_ifs <;> simp
      rw [hesc]
      rcases hrel with ⟨rfl, rfl⟩ | ⟨a, b, rfl, rfl, hab⟩
      · rw [cbFinal_cons_ne_none _ hbt, (cbFinal_nonbt_prepend w hwnb _).1]
        exact ih _ _ (Or.inl ⟨rfl, rfl⟩)
      · rw [cbFinal_cons_ne_some _ _ hbt, (cbFinal_nonbt_prepend w hwnb _).2 b]
        refine ih _ _ (Or.inr ⟨c :: a, w.reverse ++ b, rfl, rfl, ?_⟩)
        constructor
        · intro h; exact absurd h (by simp)
        · intro h
          exact absurd h (by simp [hwne])

theorem cbFinal_escape {s : List Char} (h : cbFinal s none = none) :
    cbFinal (escapeAngles s) none = none :=
  (cbFinal_escape_rel s none none (Or.inl ⟨rfl, rfl⟩)).mp h

theorem cbAux_nul_cons (y : List Char) :
    cbAux (nulChar :: y) none = nulChar :: cbAux y none := by
  rw [cbAux, if_neg (by decide)]

theorem colorBackticks_phESegs :
    ∀ (segs : List Seg), segs.all goodSeg = true →
      colorBackticks (phESegs segs) = phCSegs segs := by
  intro segs
  induction segs with
  | nil => intro _; rfl
  | cons sg rest ih =>
    intro hall
    rw [List.all_cons, Bool.and_eq_true] at hall
    obtain ⟨hg, hall⟩ := hall
    match sg with
    | Seg.out s =>
      obtain ⟨-, -, h3, -⟩ := goodSeg_out hg
      rw [phESegs, phCSegs, colorBackticks,
        cbAux_append_of_final_none _ none _ (cbFinal_escape h3)]
      exact congrArg (fun t => cbAux (escapeAngles s) none ++ t) (ih hall)
    | Seg.fence b =>
      rw [phESegs, phCSegs, colorBackticks, cbAux_nul_cons]
      exact congrArg (List.cons nulChar) (ih hall)

theorem escapeAngles_not_nul {s : List Char} (h : nulChar ∉ s) :
    nulChar ∉ escapeAngles s := by
  induction s with
  | nil => simp [escapeAngles]
  | cons c r ih =>
    rw [escapeAngles]
    have hc : c ≠ nulChar := fun hc => h (by simp [hc])
    have hr : nulChar ∉ r := fun hr => h (by simp [hr])
    intro hmem
    rcases List.mem_append.mp hmem with hin | hin
    · revert hin
      split_ifs with h1 h2
      · intro hin; simp at hin
        exact absurd hin (by decide)
      · intro hin; simp at hin
        exact absurd hin (by decide)
      · intro hin; simp at hin
        exact hc hin.symm
    · exact ih hr hin

theorem cbAux_not_nul :
    ∀ (x : List Char), nulChar ∉ x →
      ∀ (st : Option (List Char)),
        (st = none ∨ ∃ a, st = some a ∧ nulChar ∉ a) →
        nulChar ∉ cbAux x st := by
  intro x
  induction x with
  | nil =>
    intro _ st hst
    rcases hst with rfl | ⟨a, rfl, ha⟩
    · simp [cbAux]
    · rw [cbAux]
      intro hmem
      rcases List.mem_cons.mp hmem with h | h
      · exact absurd h.symm (by decide)
      · exact ha (List.mem_reverse.mp h)
  | cons c r ih =>
    intro hx st hst
    have hc : c ≠ nulChar := fun h => hx (by simp [h])
    have hr : nulChar ∉ r := fun h => hx (by simp [h])
    by_cases hbt : c = btChar
    · subst hbt
      rcases hst with rfl | ⟨a, rfl, ha⟩
      · rw [cbAux, if_pos rfl]
        exact ih hr _ (Or.inr ⟨[], rfl, by simp⟩)
      · match a with
        | [] =>
          rw [cbAux, if_pos rfl]
          intro hmem
          rcases List.mem_cons.mp hmem with h | h
          · exact absurd h.symm (by decide)
          · exact ih hr _ (Or.inr ⟨[], rfl, by simp⟩) h
        | a' :: as =>
          rw [cbAux, if_pos rfl]
          intro hmem
          simp only [List.append_assoc, List.mem_append] at hmem
          rcases hmem with h | h | h | h
          · revert h; decide
          · exact ha (List.mem_reverse.mp h)
          · revert h; decide
          · exact ih hr _ (Or.inl rfl) h
    · rcases hst with rfl | ⟨a, rfl, ha⟩
      · rw [cbAux, if_neg hbt]
        intro hmem
        rcases List.mem_cons.mp hmem with h | h
        · exact hc h.symm
        · exact ih hr _ (Or.inl rfl) h
      · match a with
        | [] =>
          rw [cbAux, if_neg hbt]
          refine ih hr _ (Or.inr ⟨[c], rfl, ?_⟩)
          simp only [List.mem_singleton]
          exact fun h => hc h.symm
        | a' :: as =>
          rw [cbAux, if_neg hbt]
          refine ih hr _ (Or.inr ⟨c :: a' :: as, rfl, ?_⟩)
          intro hmem
          rcases List.mem_cons.mp hmem with h | h
          · exact hc h.symm
          · exact ha h

theorem restoreFences_prepend {x : List Char} (h : nulChar ∉ x)
    (y : List Char) (q : List (List Char)) :
    restoreFences (x ++ y) q = x ++ restoreFences y q := by
  induction x with
  | nil => simp
  | cons c r ih =>
    have hc : c ≠ nulChar := fun hc => h (by simp [hc])
    have hr : nulChar ∉ r := fun hr => h (by simp [hr])
    rw [List.cons_append, restoreFences, if_neg hc, ih hr]
    rfl

theorem restoreFences_phCSegs :
    ∀ (segs : List Seg), segs.all goodSeg = true →
      restoreFences (phCSegs segs) (fenceSegs segs) = specEscapeSegs segs := by
  intro segs
  induction segs with
  | nil => intro _; rfl
  | cons sg rest ih =>
    intro hall
    rw [List.all_cons, Bool.and_eq_true] at hall
    obtain ⟨hg, hall⟩ := hall
    match sg with
    | Seg.out s =>
      obtain ⟨-, h2, -, -⟩ := goodSeg_out hg
      have hnf : nulChar ∉ colorBackticks (escapeAngles s) :=
        cbAux_not_nul _ (escapeAngles_not_nul h2) none (Or.inl rfl)
      rw [phCSegs, fenceSegs, restoreFences_prepend hnf, ih hall]
      rfl
    | Seg.fence b =>
      rw [phCSegs, fenceSegs, restoreFences, if_pos rfl]
      simp only [List.headD_cons, List.tail_cons]
      rw [ih hall]
      rfl

/-- The backtick-aware escaping step on an input decomposed into outside
parts and cleanly delimited fenced blocks: fenced blocks are restored
byte for byte, outside parts are angle-escaped and their single-backtick
spans recolored. -/
theorem replaceBackticks_segs (segs : List Seg) (h : segs.all goodSeg = true) :
    replaceBackticksExceptCodeBlocks (renderSegs segs) = specEscapeSegs segs := by
  rw [replaceBackticksExceptCodeBlocks]
  rw [extractFences_renderSegs segs h]
  rw [show (phSegs segs, fenceSegs segs).1 = phSegs segs from rfl,
    show (phSegs segs, fenceSegs segs).2 = fenceSegs segs from rfl]
  rw [escapeAngles_phSegs segs, colorBackticks_phESegs segs h,
    restoreFences_phCSegs segs h]

theorem replaceBackticks_nul_counterexample :
    replaceBackticksExceptCodeBlocks [nulChar] = [] ∧
    specEscapeSegs [Seg.out [nulChar]] = [nulChar] ∧
    ([] : List Char) ≠ [nulChar] := by
  refine ⟨?_, by decide, by decide⟩
  simp [replaceBackticksExceptCodeBlocks, extractFences, splitTriple,
    startsWithTriple, escapeAngles, colorBackticks, cbAux, restoreFences,
    nulChar, btChar]

theorem replaceBackticks_segs_witness :
    ([Seg.out "a `b` <c> ".data, Seg.fence "x `y` z".data,
        Seg.out " `d` !".data].all goodSeg = true) ∧
    replaceBackticksExceptCodeBlocks
        (renderSegs [Seg.out "a `b` <c> ".data, Seg.fence "x `y` z".data,
          Seg.out " `d` !".data])
      = specEscapeSegs [Seg.out "a `b` <c> ".data, Seg.fence "x `y` z".data,
          Seg.out " `d` !".data] :=
  ⟨by decide, replaceBackticks_segs _ (by decide)⟩

theorem collapseLinks_nil : collapseLinks [] = [] := by
  rw [collapseLinks]

theorem collapseLinks_cons_none {c : Char} {r : List Char}
    (h : tryMatchAt (c :: r) = none) :
    collapseLinks (c :: r) = c :: collapseLinks r := by
  rw [collapseLinks]
  split
  · next p heq => rw [h] at heq; simp at heq
  · rfl

theorem collapseLinks_cons_some {c : Char} {r g2 rest : List Char}
    (h : tryMatchAt (c :: r) = some (g2, rest)) :
    collapseLinks (c :: r)
      = '[' :: (g2 ++ (' ' :: pageChar :: ']' :: collapseLinks rest)) := by
  rw [collapseLinks]
  split
  · next p heq =>
    rw [h] at heq
    obtain rfl := Option.some.inj heq
    rfl
  · next heq => rw [h] at heq; simp at heq

theorem tryMatchAt_cons_ne {c : Char} (r : List Char) (hc : c ≠ '[') :
    tryMatchAt (c :: r) = none := by
  rw [tryMatchAt, if_neg hc]

theorem collapseLinks_prepend {pre : List Char} (h : '[' ∉ pre) :
    ∀ (s : List Char), collapseLinks (pre ++ s) = pre ++ collapseLinks s := by
  induction pre with
  | nil => intro s; rfl
  | cons c r ih =>
    intro s
    have hc : c ≠ '[' := fun hc => h (by simp [hc])
    have hr : '[' ∉ r := fun hr => h (by simp [hr])
    rw [List.cons_append, collapseLinks_cons_none (tryMatchAt_cons_ne _ hc),
      ih hr s]
    rfl

theorem collapseLinks_no_bracket {l : List Char} (h : '[' ∉ l) :
    collapseLinks l = l := by
  have := collapseLinks_prepend h []
  simpa [collapseLinks_nil] using this

theorem findPageClose_no_page {l : List Char} (h : pageChar ∉ l) :
    findPageClose l = none := by
  induction l with
  | nil => rfl
  | cons c r ih =>
    have hc : c ≠ pageChar := fun hc => h (by simp [hc])
    have hr : pageChar ∉ r := fun hr => h (by simp [hr])
    match r, hr, ih with
    | [], _, _ => rfl
    | d :: r', hr, ih =>
      rw [findPageClose, if_neg (by exact fun hcd => hc hcd.1), ih hr]
      rfl

theorem tryDotLazy_no_page {l : List Char} (h : pageChar ∉ l) :
    tryDotLazy l = none := by
  match l, h with
  | [], _ => rfl
  | c :: r, h =>
    have hr : pageChar ∉ r := fun hr => h (by simp [hr])
    rw [tryDotLazy, findPageClose_no_page hr]
    rfl

theorem tryGroup3_no_page {l : List Char} (h : pageChar ∉ l) :
    tryGroup3 l = none := by
  match l, h with
  | [], _ => rfl
  | c :: r, h =>
    have hr : pageChar ∉ r := fun hr => h (by simp [hr])
    rw [tryGroup3]
    by_cases hc : c = quoteChar
    · rw [if_pos hc, tryDotLazy_no_page hr, tryDotLazy_no_page h]
      rfl
    · rw [if_neg hc, tryDotLazy_no_page h]
      rfl

theorem tryKs_no_page {run after : List Char} (h : pageChar ∉ run ++ after) :
    ∀ (k : Nat), tryKs run after k = none := by
  intro k
  induction k with
  | zero => rfl
  | succ k ih =>
    have hsub : pageChar ∉ run.drop (k + 1) ++ after := by
      intro hmem
      rcases List.mem_append.mp hmem with hin | hin
      · exact h (List.mem_append.mpr (Or.inl (List.drop_subset _ _ hin)))
      · exact h (List.mem_append.mpr (Or.inr hin))
    rw [tryKs, tryGroup3_no_page hsub, ih]

theorem tryMatchAt_no_page {s : List Char} (h : pageChar ∉ s) :
    tryMatchAt s = none := by
  have hafter : ∀ (t : List Char), pageChar ∉ t → tryAfterBracket t = none := by
    intro t ht
    rw [tryAfterBracket]
    exact tryKs_no_page (by rw [nonQuoteSpaceRun_eq]; exact ht) _
  match s, h with
  | [], _ => rfl
  | c :: s1, h =>
    rw [tryMatchAt]
    by_cases hc : c = '['
    · rw [if_pos hc]
      have hs1 : pageChar ∉ s1 := fun hm => h (by simp [hm])
      match s1, hs1 with
      | [], _ => rfl
      | q :: s2, hs1 =>
        have hs2 : pageChar ∉ s2 := fun hm => hs1 (by simp [hm])
        rw [tryMatchTail]
        by_cases hq : q = quoteChar
        · rw [if_pos hq, hafter s2 hs2, hafter _ hs1]
        · rw [if_neg hq, hafter _ hs1]
    · rw [if_neg hc]

theorem collapseLinks_no_page {l : List Char} (h : pageChar ∉ l) :
    collapseLinks l = l := by
  induction l with
  | nil => exact collapseLinks_nil
  | cons c r ih =>
    have hr : pageChar ∉ r := fun hr => h (by simp [hr])
    rw [collapseLinks_cons_none (tryMatchAt_no_page h), ih hr]

theorem nonQuoteSpaceRun_prepend {f : List Char}
    (hf : ∀ c ∈ f, ¬(c = quoteChar ∨ c = ' ')) (t : List Char) :
    nonQuoteSpaceRun (f ++ quoteChar :: t) = (f, quoteChar :: t) := by
  induction f with
  | nil =>
    rw [List.nil_append, nonQuoteSpaceRun, if_pos (Or.inl rfl)]
  | cons c f' ih =>
    have hc : ¬(c = quoteChar ∨ c = ' ') := hf c (by simp)
    have hf' : ∀ d ∈ f', ¬(d = quoteChar ∨ d = ' ') :=
      fun d hd => hf d (by simp [hd])
    rw [List.cons_append, nonQuoteSpaceRun, if_neg hc, ih hf']

theorem findPageClose_exact {m : List Char} (post : List Char)
    (hm : pageChar ∉ m) :
    findPageClose (m ++ pageChar :: ']' :: post) = some (m, post) := by
  induction m with
  | nil =>
    rw [List.nil_append, findPageClose, if_pos ⟨rfl, rfl⟩]
  | cons c m' ih =>
    have hc : c ≠ pageChar := fun hc => hm (by simp [hc])
    have hm' : pageChar ∉ m' := fun hm' => hm (by simp [hm'])
    match m', hm', ih with
    | [], _, _ =>
      rw [List.cons_append, List.nil_append, findPageClose,
        if_neg (fun hcd => hc hcd.1), findPageClose, if_pos ⟨rfl, rfl⟩]
      rfl
    | d :: m'', hm', ih =>
      rw [show (c :: (d :: m'')) ++ pageChar :: ']' :: post
          = c :: d :: (m'' ++ pageChar :: ']' :: post) from by simp]
      rw [findPageClose, if_neg (fun hcd => hc hcd.1)]
      rw [show d :: (m'' ++ pageChar :: ']' :: post)
          = (d :: m'') ++ pageChar :: ']' :: post from rfl]
      rw [ih hm']
      rfl

theorem tryDotLazy_exact {m : List Char} (post : List Char)
    (hm : pageChar ∉ m) (hne : m ≠ []) :
    tryDotLazy (m ++ pageChar :: ']' :: post) = some (m, post) := by
  match m, hm, hne with
  | c :: m', hm, _ =>
    have hm' : pageChar ∉ m' := fun h => hm (by simp [h])
    rw [List.cons_append, tryDotLazy, findPageClose_exact post hm']
    rfl

theorem tryGroup3_exact {m : List Char} (post : List Char)
    (hm : pageChar ∉ m) (hne : m ≠ []) :
    tryGroup3 (quoteChar :: (m ++ pageChar :: ']' :: post)) = some post := by
  rw [tryGroup3, if_pos rfl, tryDotLazy_exact post hm hne]

theorem tryKs_exact {f after post : List Char} (hne : f ≠ [])
    (h3 : tryGroup3 after = some post) :
    tryKs f after f.length = some (f, post) := by
  match f, hne with
  | a :: f', _ =>
    rw [show (a :: f').length = f'.length + 1 from rfl, tryKs]
    rw [show (a :: f').drop (f'.length + 1) = f'.drop f'.length from rfl,
      List.drop_length, List.nil_append, h3]
    rw [show (a :: f').take (f'.length + 1) = a :: f'.take f'.length from rfl,
      List.take_length]

theorem tryMatchAt_exact {f m : List Char} (post : List Char)
    (hf : ∀ c ∈ f, ¬(c = quoteChar ∨ c = ' ')) (hfne : f ≠ [])
    (hm : pageChar ∉ m) (hmne : m ≠ []) :
    tryMatchAt ('[' :: quoteChar ::
        (f ++ quoteChar :: (m ++ pageChar :: ']' :: post)))
      = some (f, post) := by
  rw [tryMatchAt, if_pos rfl, tryMatchTail, if_pos rfl, tryAfterBracket,
    nonQuoteSpaceRun_prepend hf]
  rw [show ((f, quoteChar :: (m ++ pageChar :: ']' :: post)) :
      List Char × List Char).1 = f from rfl]
  rw [show ((f, quoteChar :: (m ++ pageChar :: ']' :: post)) :
      List Char × List Char).2 = quoteChar :: (m ++ pageChar :: ']' :: post)
    from rfl]
  rw [tryKs_exact hfne (tryGroup3_exact post hm hmne)]

theorem collapseLinks_exact {pre f m post : List Char}
    (hpre : '[' ∉ pre) (hpost : '[' ∉ post)
    (hf : ∀ c ∈ f, ¬(c = quoteChar ∨ c = ' ')) (hfne : f ≠ [])
    (hm : pageChar ∉ m) (hmne : m ≠ []) :
    collapseLinks (pre ++ '[' :: quoteChar ::
        (f ++ quoteChar :: (m ++ pageChar :: ']' :: post)))
      = pre ++ '[' :: (f ++ ' ' :: pageChar :: ']' :: post) := by
  rw [collapseLinks_prepend hpre,
    collapseLinks_cons_some (tryMatchAt_exact post hf hfne hm hmne),
    collapseLinks_no_bracket hpost]

theorem stripIconLinks_nil : stripIconLinks [] = [] := by
  rw [stripIconLinks]

theorem stripIconLinks_cons_none {c : Char} {r : List Char}
    (h : matchIconAt (c :: r) = none) :
    stripIconLinks (c :: r) = c :: stripIconLinks r := by
  rw [stripIconLinks]
  split
  · next rest heq => rw [h] at heq; simp at heq
  · rfl

theorem stripIconLinks_cons_some {c : Char} {r rest : List Char}
    (h : matchIconAt (c :: r) = some rest) :
    stripIconLinks (c :: r) = stripIconLinks rest := by
  rw [stripIconLinks]
  split
  · next rest' heq =>
    rw [h] at heq
    obtain rfl := Option.some.inj heq
    rfl
  · next heq => rw [h] at heq; simp at heq

theorem matchIconAt_cons_ne {c : Char} (r : List Char) (hc : c ≠ '[') :
    matchIconAt (c :: r) = none := by
  match r with
  | [] => rfl
  | [a] => rfl
  | [a, b] => rfl
  | a :: b :: d :: r' =>
    rw [matchIconAt, if_neg (fun hco => hc hco.1)]

theorem stripIconLinks_prepend {pre : List Char} (h : '[' ∉ pre) :
    ∀ (s : List Char), stripIconLinks (pre ++ s) = pre ++ stripIconLinks s := by
  induction pre with
  | nil => intro s; rfl
  | cons c r ih =>
    intro s
    have hc : c ≠ '[' := fun hc => h (by simp [hc])
    have hr : '[' ∉ r := fun hr => h (by simp [hr])
    rw [List.cons_append, stripIconLinks_cons_none (matchIconAt_cons_ne _ hc),
      ih hr s]
    rfl

theorem stripIconLinks_no_bracket {l : List Char} (h : '[' ∉ l) :
    stripIconLinks l = l := by
  have := stripIconLinks_prepend h []
  simpa [stripIconLinks_nil] using this

theorem matchIconAt_no_icon {l : List Char}
    (h : linkIconChar ∉ l ∧ globeIconChar ∉ l) : matchIconAt l = none := by
  match l, h with
  | [], _ => rfl
  | [a], _ => rfl
  | [a, b], _ => rfl
  | [a, b, c], _ => rfl
  | a :: i :: b :: p :: r, h =>
    have hi : i ≠ linkIconChar ∧ i ≠ globeIconChar := by
      constructor
      · intro hh; exact h.1 (by simp [hh])
      · intro hh; exact h.2 (by simp [hh])
    rw [matchIconAt]
    rw [if_neg (by
      rintro ⟨-, hor, -, -⟩
      rcases hor with hh | hh
      · exact hi.1 hh
      · exact hi.2 hh)]

theorem stripIconLinks_no_icon {l : List Char}
    (h1 : linkIconChar ∉ l) (h2 : globeIconChar ∉ l) :
    stripIconLinks l = l := by
  induction l with
  | nil => exact stripIconLinks_nil
  | cons c r ih =>
    have hr1 : linkIconChar ∉ r := fun hr => h1 (by simp [hr])
    have hr2 : globeIconChar ∉ r := fun hr => h2 (by simp [hr])
    rw [stripIconLinks_cons_none (matchIconAt_no_icon ⟨h1, h2⟩), ih hr1 hr2]

theorem afterLastParen_no_paren {l : List Char} (h : ')' ∉ l) :
    afterLastParen l = none := by
  induction l with
  | nil => rfl
  | cons c r ih =>
    have hc : c ≠ ')' := fun hc => h (by simp [hc])
    have hr : ')' ∉ r := fun hr => h (by simp [hr])
    rw [afterLastParen, ih hr, if_neg hc]

theorem afterLastParen_exact {post : List Char} (u : List Char)
    (hpost : ')' ∉ post) :
    afterLastParen (u ++ ')' :: post) = some post := by
  induction u with
  | nil =>
    rw [List.nil_append, afterLastParen, afterLastParen_no_paren hpost,
      if_pos rfl]
  | cons c u' ih =>
    rw [List.cons_append, afterLastParen, ih]

theorem matchIconAt_exact {icon : Char} {u post : List Char}
    (hicon : icon = linkIconChar ∨ icon = globeIconChar)
    (hpost : ')' ∉ post) :
    matchIconAt ('[' :: icon :: ']' :: '(' :: (u ++ ')' :: post))
      = some post := by
  rw [matchIconAt, if_pos ⟨rfl, hicon, rfl, rfl⟩, afterLastParen_exact u hpost]

theorem stripIconLinks_exact {pre : List Char} {icon : Char}
    {u post : List Char} (hpre : '[' ∉ pre)
    (hicon : icon = linkIconChar ∨ icon = globeIconChar)
    (hparen : ')' ∉ post) (hpost : '[' ∉ post) :
    stripIconLinks (pre ++ '[' :: icon :: ']' :: '(' :: (u ++ ')' :: post))
      = pre ++ post := by
  rw [stripIconLinks_prepend hpre,
    stripIconLinks_cons_some (matchIconAt_exact hicon hparen),
    stripIconLinks_no_bracket hpost]

/-- C7: with link display disabled (the default of the public
`formatDiagnostic` entry point), a line of the link + filename + icon
shape is collapsed to just the filename + icon, a line carrying a
standalone icon-only hyperlink is stripped of that markup, and a line
containing no opening bracket is left unchanged by both substitutions. -/
theorem linkSubstitutions_spec :
    (∀ (pre f m post : List Char),
      '[' ∉ pre → '[' ∉ post →
      (∀ c ∈ f, ¬(c = quoteChar ∨ c = ' ')) → f ≠ [] →
      pageChar ∉ m → m ≠ [] →
      linkIconChar ∉ pre ++ f ++ post → globeIconChar ∉ pre ++ f ++ post →
      linkSubstitutions defaultShowLink
          (pre ++ '[' :: quoteChar ::
            (f ++ quoteChar :: (m ++ pageChar :: ']' :: post)))
        = pre ++ '[' :: (f ++ ' ' :: pageChar :: ']' :: post)) ∧
    (∀ (pre : List Char) (icon : Char) (u post : List Char),
      '[' ∉ pre → (icon = linkIconChar ∨ icon = globeIconChar) →
      pageChar ∉ pre → pageChar ∉ u → pageChar ∉ post →
      ')' ∉ post → '[' ∉ post →
      linkSubstitutions defaultShowLink
          (pre ++ '[' :: icon :: ']' :: '(' :: (u ++ ')' :: post))
        = pre ++ post) ∧
    (∀ (l : List Char), '[' ∉ l →
      linkSubstitutions defaultShowLink l = l) := by
  refine ⟨?_, ?_, ?_⟩
  · intro pre f m post hpre hpost hf hfne hm hmne hl hg
    rw [linkSubstitutions]
    rw [collapseLinks_exact hpre hpost hf hfne hm hmne]
    rw [if_pos (show defaultShowLink = false by rfl)]
    have hmem : ∀ (i : Char), i ∉ pre ++ f ++ post →
        i ≠ '[' → i ≠ ' ' → i ≠ pageChar → i ≠ ']' →
        i ∉ pre ++ '[' :: (f ++ ' ' :: pageChar :: ']' :: post) := by
      intro i hi h1 h2 h3 h4 hmem
      simp only [List.mem_append, List.mem_cons, not_or] at hi
      simp only [List.mem_append, List.mem_cons] at hmem
      tauto
    rw [stripIconLinks_no_icon
      (hmem linkIconChar hl (by decide) (by decide) (by decide) (by decide))
      (hmem globeIconChar hg (by decide) (by decide) (by decide) (by decide))]
  · intro pre icon u post hpre hicon hp1 hp2 hp3 hparen hpost
    rw [linkSubstitutions]
    have hpage : pageChar ∉ pre ++ '[' :: icon :: ']' :: '(' ::
        (u ++ ')' :: post) := by
      intro hmem
      simp only [List.mem_append, List.mem_cons] at hmem
      rcases hmem with h | h | h | h | h | h
      · exact hp1 h
      · exact absurd h.symm (by decide)
      · rcases hicon with rfl | rfl
        · exact absurd h.symm (by decide)
        · exact absurd h.symm (by decide)
      · exact absurd h.symm (by decide)
      · exact absurd h.symm (by decide)
      · rcases h with h | h | h
        · exact hp2 h
        · exact absurd h.symm (by decide)
        · exact hp3 h
    rw [collapseLinks_no_page hpage]
    rw [if_pos (show defaultShowLink = false by rfl)]
    rw [stripIconLinks_exact hpre hicon hparen hpost]
  · intro l hl
    rw [linkSubstitutions, collapseLinks_no_bracket hl]
    rw [if_pos (show defaultShowLink = false by rfl)]
    rw [stripIconLinks_no_bracket hl]

/-- Witness for C7: a realistic rendered line for each of the three parts:
the filename link line collapses, the icon-only hyperlink is stripped,
and a plain line is untouched. -/
theorem linkSubstitutions_spec_witness :
    linkSubstitutions defaultShowLink
        ("['/p/a.ts'](f:///p/a.ts) ".data ++ [pageChar] ++ "]".data)
      = "[/p/a.ts ".data ++ [pageChar] ++ "]".data ∧
    linkSubstitutions defaultShowLink
        ("x [".data ++ [linkIconChar] ++ "](url) y".data)
      = "x  y".data ∧
    linkSubstitutions defaultShowLink "hello".data = "hello".data := by
  refine ⟨?_, ?_, ?_⟩
  · have h := linkSubstitutions_spec.1 [] "/p/a.ts".data
      "](f:///p/a.ts) ".data [] (by decide) (by decide) (by decide)
      (by decide) (by decide) (by decide) (by decide) (by decide)
    simpa using h
  · have h := linkSubstitutions_spec.2.1 "x ".data linkIconChar
      "url".data " y".data (by decide) (Or.inl rfl) (by decide) (by decide)
      (by decide) (by decide) (by decide)
    simpa using h
  · exact linkSubstitutions_spec.2.2 "hello".data (by decide)
